import Mathlib

/-!
Verification of the ensemble-voting notebook (`ensemble_voting.ipynb`).

The notebook's numeric values are modelled as rationals (`ℚ`); numpy's
`np.round` (round half to even) is modelled exactly.  The process-wide
pseudo-random generator `rng` is modelled as a stream `ℕ → ℚ` of draws,
each draw standing for one call of `rng.random()`, whose results lie in
the half-open interval `[0, 1)`.  Functions consume draws strictly in
call order: one draw per bit, classifier by classifier, matching the
sequential consumption of the shared generator in the source.

`np.mean(xs, axis=0)` applied to an empty list of rows produces a NaN
scalar (numpy's mean of an empty slice) rather than a vector; the result
type `NpResult` has a `nan` constructor for exactly that case.
-/

namespace EnsembleVoting

/-- Result of a numpy reduction: either the NaN scalar that
`np.mean([], axis=0)` produces, or a vector of values. -/
inductive NpResult where
  | nan : NpResult
  | vec : List ℚ → NpResult
deriving DecidableEq

/-- Index into an `NpResult`: `none` when the result is the NaN scalar or
the index is out of range. -/
def NpResult.atIdx : NpResult → ℕ → Option ℚ
  | .nan, _ => none
  | .vec v, i => v[i]?

/-- numpy's `np.round` on a single value: round half to even
(banker's rounding), as numpy documents and implements. -/
def np_round (q : ℚ) : ℚ :=
  if q - (⌊q⌋ : ℚ) < 1/2 then (⌊q⌋ : ℚ)
  else if 1/2 < q - (⌊q⌋ : ℚ) then ((⌊q⌋ + 1 : ℤ) : ℚ)
  else if ⌊q⌋ % 2 = 0 then (⌊q⌋ : ℚ) else ((⌊q⌋ + 1 : ℤ) : ℚ)

/-- The mean of column `i` of a list of rows: the sum of the entries at
position `i` divided by the number of rows. -/
def colMean (xs : List (List ℚ)) (i : ℕ) : ℚ :=
  ((xs.map (fun row => row.getD i 0)).sum) / (xs.length : ℚ)

/-- `np.mean(xs, axis=0)`: positionwise mean over the rows.  An empty
list of rows gives numpy's NaN scalar; otherwise entry `i` of the result
is the mean of column `i`. -/
def np_mean_axis0 (xs : List (List ℚ)) : NpResult :=
  match xs with
  | [] => .nan
  | x :: _ => .vec ((List.range x.length).map (colMean xs))

/-- `np.round` mapped over an `NpResult`; `np.round(nan)` is NaN. -/
def np_round_result : NpResult → NpResult
  | .nan => .nan
  | .vec v => .vec (v.map np_round)

/-- `do_majority(classifiers) = np.round(np.mean(classifiers, axis=0))`
(cell-13 of the notebook).  numpy silently casts boolean input rows to
floats, so the embedding takes rows of rationals. -/
def do_majority (classifiers : List (List ℚ)) : NpResult :=
  np_round_result (np_mean_axis0 classifiers)

/-- `fuzzy_ensemble(classifiers) = np.round(np.mean(classifiers, axis=0))`
(cell-36 of the notebook). -/
def fuzzy_ensemble (classifiers : List (List ℚ)) : NpResult :=
  np_round_result (np_mean_axis0 classifiers)

/-- numpy's cast of a Python boolean to a float. -/
def boolToQ (b : Bool) : ℚ := if b then 1 else 0

/-- `do_majority` applied to boolean classifier rows, as in the notebook,
with numpy's implicit boolean-to-float cast made explicit. -/
def do_majority_bool (cs : List (List Bool)) : NpResult :=
  do_majority (cs.map (fun c => c.map boolToQ))

/-- The fraction of classifiers voting `true` at position `i`. -/
def trueFrac (cs : List (List Bool)) (i : ℕ) : ℚ :=
  ((cs.countP (fun c => c.getD i false)) : ℚ) / (cs.length : ℚ)

/-- `fuzzy_ground(input)` (cell-36): for each bit draw one `rng.random()`
value `r`; a true bit becomes `(r + 1) / 2`, a false bit becomes `r / 2`. -/
def fuzzy_ground : List Bool → (ℕ → ℚ) → List ℚ
  | [], _ => []
  | b :: rest, rng =>
      (if b then (rng 0 + 1) / 2 else rng 0 / 2) ::
        fuzzy_ground rest (fun n => rng (n + 1))

/-- The inner loop shared by `create_classifiers` and
`make_corr_classifiers`: for each position draw one `rng.random()` value
and negate the bit when the draw is `< flip_ratio`.  (The Python loop
reads `bit` from the position being overwritten before writing it, so
each output bit depends only on the original input bit.) -/
def flip_bits : List Bool → ℚ → (ℕ → ℚ) → List Bool
  | [], _, _ => []
  | b :: rest, flip_ratio, rng =>
      (if rng 0 < flip_ratio then !b else b) ::
        flip_bits rest flip_ratio (fun n => rng (n + 1))

/-- `create_classifiers(ground_truth, num_classifiers, flip_ratio)`
(cell-3): `num_classifiers` copies of `ground_truth`, each then flipped
positionwise with probability `flip_ratio`.  Classifier `k` consumes the
draws numbered `k * N, …, (k+1) * N - 1` of the shared stream, matching
the sequential loop in the source. -/
def create_classifiers (ground_truth : List Bool) (num_classifiers : ℕ)
    (flip_ratio : ℚ) (rng : ℕ → ℚ) : List (List Bool) :=
  (List.range num_classifiers).map (fun k =>
    flip_bits ground_truth flip_ratio
      (fun n => rng (k * ground_truth.length + n)))

/-- `make_corr_classifiers(base_sys, flip, num_classifiers)` (cell-22):
each output classifier is a copy of the one shared `base_sys` with each
position flipped with probability `flip`. -/
def make_corr_classifiers (base_sys : List Bool) (flip : ℚ)
    (num_classifiers : ℕ) (rng : ℕ → ℚ) : List (List Bool) :=
  (List.range num_classifiers).map (fun k =>
    flip_bits base_sys flip (fun n => rng (k * base_sys.length + n)))

/-!
A small heap model for the mutation claims.  Python lists are mutable
cells; a heap is the list of allocated cells and a reference is an index
into it.  `ground_truth.copy()` / `base_sys.copy()` allocate fresh
cells, and `classifier[count] = not(bit)` mutates a cell in place.
-/

/-- In-place update of the cell at reference `r` (Python's
`cell[count] = …`, here applied as a whole-list transformation of the
cell's contents). -/
def mutateCell (heap : List (List Bool)) (r : ℕ)
    (f : List Bool → List Bool) : List (List Bool) :=
  heap.set r (f (heap.getD r []))

/-- Heap-level `create_classifiers`: the list comprehension
`[ground_truth.copy() for x in range(num_classifiers)]` allocates all
copies first; the `for` loop then mutates each copy cell in place.
Returns the final heap and the references to the new cells. -/
def create_classifiers_heap (heap : List (List Bool)) (gt : ℕ)
    (num_classifiers : ℕ) (flip_ratio : ℚ) (rng : ℕ → ℚ) :
    List (List Bool) × List ℕ :=
  ((List.range num_classifiers).foldl (fun h k =>
      mutateCell h (heap.length + k)
        (fun c => flip_bits c flip_ratio
          (fun n => rng (k * (heap.getD gt []).length + n))))
    (heap ++ List.replicate num_classifiers (heap.getD gt [])),
   (List.range num_classifiers).map (fun k => heap.length + k))

/-- Heap-level `make_corr_classifiers`: each iteration copies the base
cell (`new_sys = base_sys.copy()`), flips bits of the fresh copy reading
`base_sys` (the loop enumerates `base_sys` and writes `new_sys`, and the
two cells never alias), and appends the new cell. -/
def make_corr_classifiers_heap (heap : List (List Bool)) (base_sys : ℕ)
    (flip : ℚ) (num_classifiers : ℕ) (rng : ℕ → ℚ) :
    List (List Bool) × List ℕ :=
  (List.range num_classifiers).foldl (fun st k =>
    (st.1 ++ [flip_bits (st.1.getD base_sys []) flip
        (fun n => rng (k * (st.1.getD base_sys []).length + n))],
     st.2 ++ [st.1.length])) (heap, [])

/-!  Facts about `np_round` on the unit interval. -/

/-- A value in `[0, 1/2)` rounds to `0`. -/
lemma np_round_of_nonneg_lt_half (q : ℚ) (h0 : 0 ≤ q) (h : q < 1/2) :
    np_round q = 0 := by
  have hf : ⌊q⌋ = 0 := Int.floor_eq_zero_iff.mpr ⟨h0, by linarith⟩
  simp only [np_round, hf]
  norm_num [h]

/-- A value in `(1/2, 1]` rounds to `1`. -/
lemma np_round_of_half_lt_le_one (q : ℚ) (h : 1/2 < q) (h1 : q ≤ 1) :
    np_round q = 1 := by
  rcases h1.lt_or_eq with hlt | heq
  · have hf : ⌊q⌋ = 0 := Int.floor_eq_zero_iff.mpr ⟨by linarith, hlt⟩
    simp only [np_round, hf]
    norm_num
    rw [if_neg (by linarith), if_pos h]
  · subst heq
    have hf : ⌊(1 : ℚ)⌋ = 1 := by norm_num
    simp only [np_round, hf]
    norm_num

/-- The tie value `1/2` rounds half-to-even, giving `0`. -/
lemma np_round_half_eq_zero : np_round (1/2 : ℚ) = 0 := by
  have hf : ⌊(1/2 : ℚ)⌋ = 0 := by norm_num
  simp only [np_round, hf]
  norm_num

/-!  Facts about the positionwise mean. -/

/-- The column mean is invariant under permuting the rows. -/
lemma colMean_perm (xs ys : List (List ℚ)) (h : xs.Perm ys) :
    colMean xs = colMean ys := by
  funext i
  unfold colMean
  rw [(h.map (fun row => row.getD i 0)).sum_eq, h.length_eq]

/-- Indexing the mean of a non-empty list of rows within the header
row's length gives the column mean. -/
lemma np_mean_axis0_cons_atIdx (x : List ℚ) (rest : List (List ℚ)) (i : ℕ)
    (hi : i < x.length) :
    (np_mean_axis0 (x :: rest)).atIdx i = some (colMean (x :: rest) i) := by
  simp only [np_mean_axis0, NpResult.atIdx]
  rw [List.getElem?_map, List.getElem?_range hi]
  rfl

/-- Indexing after `np_round_result` rounds the indexed entry. -/
lemma np_round_result_atIdx (r : NpResult) (i : ℕ) :
    (np_round_result r).atIdx i = (r.atIdx i).map np_round := by
  cases r with
  | nan => rfl
  | vec v =>
      simp only [np_round_result, NpResult.atIdx]
      rw [List.getElem?_map]

/-- Reading position `i` of a boolean row cast to floats. -/
lemma map_boolToQ_getD (c : List Bool) (i : ℕ) (hi : i < c.length) :
    (c.map boolToQ).getD i 0 = boolToQ (c.getD i false) := by
  have hi' : i < (c.map boolToQ).length := by simpa using hi
  rw [List.getD_eq_getElem _ _ hi', List.getElem_map, List.getD_eq_getElem _ _ hi]

/-- The sum of column `i` of boolean rows cast to floats counts the rows
that are `true` at `i`. -/
lemma sum_column_eq_countP (cs : List (List Bool)) (i : ℕ)
    (h : ∀ c ∈ cs, i < c.length) :
    ((cs.map (fun c => c.map boolToQ)).map (fun row => row.getD i 0)).sum
      = ((cs.countP (fun c => c.getD i false)) : ℚ) := by
  induction cs with
  | nil => simp
  | cons c rest ih =>
      have hc : i < c.length := h c (List.mem_cons_self c rest)
      have hrest := ih (fun d hd => h d (List.mem_cons_of_mem c hd))
      simp only [List.map_cons, List.sum_cons, List.countP_cons, hrest,
        map_boolToQ_getD c i hc]
      cases hcb : c.getD i false
      · simp [boolToQ]
      · simp only [boolToQ, if_pos rfl, if_true]
        push_cast
        ring

/-- The column mean of boolean rows cast to floats is the fraction of
rows voting `true` at that position. -/
lemma colMean_map_boolToQ (cs : List (List Bool)) (i : ℕ)
    (h : ∀ c ∈ cs, i < c.length) :
    colMean (cs.map (fun c => c.map boolToQ)) i = trueFrac cs i := by
  unfold colMean trueFrac
  rw [sum_column_eq_countP cs i h, List.length_map]

/-- For a non-empty ensemble of equal-length boolean classifiers,
position `i` of `do_majority` is the rounded fraction of `true` votes. -/
lemma do_majority_bool_atIdx (cs : List (List Bool)) (N i : ℕ)
    (hne : cs ≠ []) (hlen : ∀ c ∈ cs, c.length = N) (hi : i < N) :
    (do_majority_bool cs).atIdx i = some (np_round (trueFrac cs i)) := by
  obtain ⟨c0, rest, rfl⟩ := List.exists_cons_of_ne_nil hne
  have hi0 : i < (c0.map boolToQ).length := by
    simpa [hlen c0 (List.mem_cons_self _ _)] using hi
  show (np_round_result (np_mean_axis0
      ((c0.map boolToQ) :: rest.map (fun c => c.map boolToQ)))).atIdx i = _
  rw [np_round_result_atIdx, np_mean_axis0_cons_atIdx _ _ i hi0]
  show some (np_round (colMean ((c0 :: rest).map (fun c => c.map boolToQ)) i)) = _
  rw [colMean_map_boolToQ _ i (fun c hc => by rw [hlen c hc]; exact hi)]

/-- C2 counterexample: the code does not raise on an empty ensemble; it
returns numpy's NaN scalar (`np.mean` of an empty slice), so the claimed
fail-fast error does not happen. -/
theorem do_majority_empty_is_nan :
    do_majority ([] : List (List ℚ)) = NpResult.nan := rfl

/-- C2 (amended): an empty ensemble passed to `do_majority` or
`fuzzy_ensemble` yields numpy's NaN scalar — no error is raised and no
vector is produced. -/
theorem empty_ensemble_yields_nan :
    do_majority ([] : List (List ℚ)) = NpResult.nan ∧
      fuzzy_ensemble ([] : List (List ℚ)) = NpResult.nan :=
  ⟨rfl, rfl⟩

/-- C3: the soft-vote aggregator and the hard-vote aggregator compute
the same function — `fuzzy_ensemble` and `do_majority` are both
`np.round(np.mean(classifiers, axis=0))`, so they agree on every input
(in particular on every non-empty list of equal-length rows). -/
theorem fuzzy_ensemble_eq_do_majority :
    ∀ classifiers : List (List ℚ),
      fuzzy_ensemble classifiers = do_majority classifiers :=
  fun _ => rfl

/-- `do_majority` on boolean classifiers is invariant under permuting
the classifiers: the positionwise mean sees only the multiset of rows. -/
lemma do_majority_bool_perm (cs cs' : List (List Bool)) (N : ℕ)
    (hlen : ∀ c ∈ cs, c.length = N) (hperm : cs'.Perm cs) :
    do_majority_bool cs' = do_majority_bool cs := by
  cases cs with
  | nil =>
      have h0 : cs' = [] := hperm.eq_nil
      rw [h0]
  | cons b m =>
      cases cs' with
      | nil => exact absurd hperm.length_eq (by simp)
      | cons a l =>
          have hpermq := hperm.map (fun c => c.map boolToQ)
          have hq : ((a.map boolToQ) :: l.map (fun c => c.map boolToQ)).Perm
              ((b.map boolToQ) :: m.map (fun c => c.map boolToQ)) := by
            simpa using hpermq
          have hal : a.length = N := hlen a (hperm.subset (List.mem_cons_self a l))
          have hbl : b.length = N := hlen b (List.mem_cons_self b m)
          show np_round_result (np_mean_axis0
              ((a.map boolToQ) :: l.map (fun c => c.map boolToQ))) =
            np_round_result (np_mean_axis0
              ((b.map boolToQ) :: m.map (fun c => c.map boolToQ)))
          simp only [np_mean_axis0]
          rw [colMean_perm _ _ hq]
          simp only [List.length_map, hal, hbl]

/-- C4: for a non-empty list of equal-length boolean classifiers,
`do_majority` outputs `1` at every position where the fraction of `true`
votes is strictly above one half, and `0` at every position where it is
strictly below one half. -/
theorem do_majority_strict_majority (cs : List (List Bool)) (N i : ℕ)
    (hne : cs ≠ []) (hlen : ∀ c ∈ cs, c.length = N) (hi : i < N) :
    (1/2 < trueFrac cs i → (do_majority_bool cs).atIdx i = some 1) ∧
      (trueFrac cs i < 1/2 → (do_majority_bool cs).atIdx i = some 0) := by
  have hmain := do_majority_bool_atIdx cs N i hne hlen hi
  have hlenpos : (0 : ℚ) < (cs.length : ℚ) := by
    have : 0 < cs.length := List.length_pos.mpr hne
    exact_mod_cast this
  have h0 : 0 ≤ trueFrac cs i := by
    unfold trueFrac
    positivity
  have h1 : trueFrac cs i ≤ 1 := by
    unfold trueFrac
    rw [div_le_one hlenpos]
    exact_mod_cast List.countP_le_length _
  constructor
  · intro hgt
    rw [hmain, np_round_of_half_lt_le_one _ hgt h1]
  · intro hlt
    rw [hmain, np_round_of_nonneg_lt_half _ h0 hlt]

/-- C4 witness: three classifiers on one sample, two voting `true`; the
fraction `2/3` is above one half and the majority output is `1`. -/
theorem do_majority_strict_majority_witness :
    (([[true], [true], [false]] : List (List Bool)) ≠ [] ∧
        (∀ c ∈ ([[true], [true], [false]] : List (List Bool)), c.length = 1) ∧
        0 < 1) ∧
      ((1/2 < trueFrac [[true], [true], [false]] 0 →
          (do_majority_bool [[true], [true], [false]]).atIdx 0 = some 1) ∧
        (trueFrac [[true], [true], [false]] 0 < 1/2 →
          (do_majority_bool [[true], [true], [false]]).atIdx 0 = some 0)) :=
  ⟨⟨by decide, by decide, by decide⟩,
    do_majority_strict_majority [[true], [true], [false]] 1 0
      (by decide) (by decide) (by decide)⟩

/-- C5: at a position where the fraction of `true` votes in an
even-sized ensemble is exactly one half, `do_majority` always returns
`0` (the fixed round-half-to-even rule), and the output is unchanged
under any reordering of the classifiers. -/
theorem do_majority_tie_deterministic (cs cs' : List (List Bool)) (N i : ℕ)
    (hne : cs ≠ []) (hlen : ∀ c ∈ cs, c.length = N) (hi : i < N)
    (_heven : Even cs.length) (htie : trueFrac cs i = 1/2)
    (hperm : cs'.Perm cs) :
    (do_majority_bool cs).atIdx i = some 0 ∧
      do_majority_bool cs' = do_majority_bool cs := by
  refine ⟨?_, do_majority_bool_perm cs cs' N hlen hperm⟩
  rw [do_majority_bool_atIdx cs N i hne hlen hi, htie, np_round_half_eq_zero]

/-- C5 witness: two classifiers split one--one on a single sample; the
tie rounds to `0` and swapping the classifiers changes nothing. -/
theorem do_majority_tie_deterministic_witness :
    (([[true], [false]] : List (List Bool)) ≠ [] ∧
        (∀ c ∈ ([[true], [false]] : List (List Bool)), c.length = 1) ∧
        0 < 1 ∧ Even ([[true], [false]] : List (List Bool)).length ∧
        trueFrac [[true], [false]] 0 = 1/2 ∧
        ([[false], [true]] : List (List Bool)).Perm [[true], [false]]) ∧
      ((do_majority_bool [[true], [false]]).atIdx 0 = some 0 ∧
        do_majority_bool [[false], [true]] = do_majority_bool [[true], [false]]) :=
  ⟨⟨by decide, by decide, by decide, by decide,
      by norm_num [trueFrac, List.countP, List.countP.go], by decide⟩,
    do_majority_tie_deterministic [[true], [false]] [[false], [true]] 1 0
      (by decide) (by decide) (by decide) (by decide)
      (by norm_num [trueFrac, List.countP, List.countP.go]) (by decide)⟩

/-- With flip probability `1` every draw of `rng.random()` lies below
the threshold, so every bit is negated. -/
lemma flip_bits_ratio_one :
    ∀ (l : List Bool) (rng : ℕ → ℚ), (∀ n, rng n < 1) →
      flip_bits l 1 rng = l.map (fun b => !b)
  | [], _, _ => rfl
  | b :: rest, rng, h => by
      simp only [flip_bits, List.map_cons, if_pos (h 0)]
      rw [flip_bits_ratio_one rest (fun n => rng (n + 1)) (fun n => h (n + 1))]

/-- With flip probability `0` no draw of `rng.random()` lies below the
threshold, so no bit is negated. -/
lemma flip_bits_ratio_zero :
    ∀ (l : List Bool) (rng : ℕ → ℚ), (∀ n, 0 ≤ rng n) →
      flip_bits l 0 rng = l
  | [], _, _ => rfl
  | b :: rest, rng, h => by
      simp only [flip_bits, if_neg (not_lt.mpr (h 0))]
      rw [flip_bits_ratio_zero rest (fun n => rng (n + 1)) (fun n => h (n + 1))]

/-- C6: with `flip_ratio = 1`, every classifier returned by
`create_classifiers` is the exact logical complement of the ground
truth, for every ground truth, count, and RNG stream of draws in
`[0, 1)`. -/
theorem create_classifiers_ratio_one_complements (ground_truth : List Bool)
    (num_classifiers : ℕ) (rng : ℕ → ℚ)
    (h : ∀ n, 0 ≤ rng n ∧ rng n < 1) :
    ∀ c ∈ create_classifiers ground_truth num_classifiers 1 rng,
      c = ground_truth.map (fun b => !b) := by
  intro c hc
  obtain ⟨k, _, rfl⟩ := List.mem_map.mp hc
  exact flip_bits_ratio_one _ _ (fun n => (h _).2)

/-- C6 witness: two classifiers built from `[true, false]` with
`flip_ratio = 1` under the all-zero draw stream are both `[false, true]`. -/
theorem create_classifiers_ratio_one_complements_witness :
    (∀ n : ℕ, 0 ≤ (fun _ : ℕ => (0 : ℚ)) n ∧ (fun _ : ℕ => (0 : ℚ)) n < 1) ∧
      ∀ c ∈ create_classifiers [true, false] 2 1 (fun _ => 0),
        c = [true, false].map (fun b => !b) :=
  ⟨fun _ => ⟨le_refl 0, by norm_num⟩,
    create_classifiers_ratio_one_complements [true, false] 2 (fun _ => 0)
      (fun _ => ⟨le_refl 0, by norm_num⟩)⟩

/-- C7: with `flip_ratio = 0`, every classifier returned by
`create_classifiers` is identical to the ground truth, for every ground
truth, count, and RNG stream of draws in `[0, 1)`. -/
theorem create_classifiers_ratio_zero_copies (ground_truth : List Bool)
    (num_classifiers : ℕ) (rng : ℕ → ℚ)
    (h : ∀ n, 0 ≤ rng n ∧ rng n < 1) :
    ∀ c ∈ create_classifiers ground_truth num_classifiers 0 rng,
      c = ground_truth := by
  intro c hc
  obtain ⟨k, _, rfl⟩ := List.mem_map.mp hc
  exact flip_bits_ratio_zero _ _ (fun n => (h _).1)

/-- C7 witness: two classifiers built from `[true, false]` with
`flip_ratio = 0` under the all-zero draw stream are both `[true, false]`. -/
theorem create_classifiers_ratio_zero_copies_witness :
    (∀ n : ℕ, 0 ≤ (fun _ : ℕ => (0 : ℚ)) n ∧ (fun _ : ℕ => (0 : ℚ)) n < 1) ∧
      ∀ c ∈ create_classifiers [true, false] 2 0 (fun _ => 0),
        c = [true, false] :=
  ⟨fun _ => ⟨le_refl 0, by norm_num⟩,
    create_classifiers_ratio_zero_copies [true, false] 2 (fun _ => 0)
      (fun _ => ⟨le_refl 0, by norm_num⟩)⟩

/-- Full range analysis of one `fuzzy_ground` output value, by
structural recursion over the input with the draw stream shifted. -/
lemma fuzzy_ground_range_aux :
    ∀ (input : List Bool) (rng : ℕ → ℚ), (∀ n, 0 ≤ rng n ∧ rng n < 1) →
      ∀ i, i < input.length →
        (input.getD i false = false →
            0 ≤ (fuzzy_ground input rng).getD i 0 ∧
              (fuzzy_ground input rng).getD i 0 < 1/2) ∧
          (input.getD i false = true →
            1/2 ≤ (fuzzy_ground input rng).getD i 0 ∧
              (fuzzy_ground input rng).getD i 0 < 1) ∧
          (fuzzy_ground input rng).getD i 0 ≠ 1 ∧
          ((fuzzy_ground input rng).getD i 0 = 1/2 →
            input.getD i false = true)
  | [], _, _, _, hi => absurd hi (by simp)
  | b :: rest, rng, h, 0, _ => by
      obtain ⟨hr0, hr1⟩ := h 0
      cases b with
      | true =>
          have hv : (fuzzy_ground (true :: rest) rng).getD 0 0
              = (rng 0 + 1) / 2 := by
            simp [fuzzy_ground]
          simp only [List.getD_cons_zero, hv]
          refine ⟨?_, ?_, ?_, ?_⟩
          · intro hcontra
            simp at hcontra
          · intro _hb
            exact ⟨by linarith, by linarith⟩
          · intro heq
            linarith
          · intro _hx
            trivial
      | false =>
          have hv : (fuzzy_ground (false :: rest) rng).getD 0 0
              = rng 0 / 2 := by
            simp [fuzzy_ground]
          simp only [List.getD_cons_zero, hv]
          refine ⟨?_, ?_, ?_, ?_⟩
          · intro _hb
            exact ⟨by linarith, by linarith⟩
          · intro hcontra
            simp at hcontra
          · intro heq
            linarith
          · intro heq
            exfalso
            linarith
  | b :: rest, rng, h, i + 1, hi => by
      simpa only [fuzzy_ground, List.getD_cons_succ] using
        fuzzy_ground_range_aux rest (fun n => rng (n + 1))
          (fun n => h (n + 1)) i (Nat.lt_of_succ_lt_succ hi)

/-- C10: under draws in `[0, 1)`, each `fuzzy_ground` value for a false
bit lies in `[0, 1/2)`, each value for a true bit lies in `[1/2, 1)`, no
value equals `1`, and a value of exactly `1/2` can only arise from a
true bit. -/
theorem fuzzy_ground_value_ranges (input : List Bool) (rng : ℕ → ℚ)
    (h : ∀ n, 0 ≤ rng n ∧ rng n < 1) (i : ℕ) (hi : i < input.length) :
    (input.getD i false = false →
        0 ≤ (fuzzy_ground input rng).getD i 0 ∧
          (fuzzy_ground input rng).getD i 0 < 1/2) ∧
      (input.getD i false = true →
        1/2 ≤ (fuzzy_ground input rng).getD i 0 ∧
          (fuzzy_ground input rng).getD i 0 < 1) ∧
      (fuzzy_ground input rng).getD i 0 ≠ 1 ∧
      ((fuzzy_ground input rng).getD i 0 = 1/2 →
        input.getD i false = true) :=
  fuzzy_ground_range_aux input rng h i hi

/-- C10 witness: the first bit of `[true, false]` under the all-zero
draw stream satisfies the range facts. -/
theorem fuzzy_ground_value_ranges_witness :
    ((∀ n : ℕ, 0 ≤ (fun _ : ℕ => (0 : ℚ)) n ∧ (fun _ : ℕ => (0 : ℚ)) n < 1) ∧
        0 < ([true, false] : List Bool).length) ∧
      ((([true, false] : List Bool).getD 0 false = false →
          0 ≤ (fuzzy_ground [true, false] (fun _ => 0)).getD 0 0 ∧
            (fuzzy_ground [true, false] (fun _ => 0)).getD 0 0 < 1/2) ∧
        (([true, false] : List Bool).getD 0 false = true →
          1/2 ≤ (fuzzy_ground [true, false] (fun _ => 0)).getD 0 0 ∧
            (fuzzy_ground [true, false] (fun _ => 0)).getD 0 0 < 1) ∧
        (fuzzy_ground [true, false] (fun _ => 0)).getD 0 0 ≠ 1 ∧
        ((fuzzy_ground [true, false] (fun _ => 0)).getD 0 0 = 1/2 →
          ([true, false] : List Bool).getD 0 false = true)) :=
  ⟨⟨fun _ => ⟨le_refl 0, by norm_num⟩, by decide⟩,
    fuzzy_ground_value_ranges [true, false] (fun _ => 0)
      (fun _ => ⟨le_refl 0, by norm_num⟩) 0 (by decide)⟩

/-- C1: the round trip fails on the code for a legal RNG draw.  The
draw `0` lies in `[0, 1)`; on input `[true]` it makes `fuzzy_ground`
emit exactly `1/2`, and numpy's round-half-to-even sends `1/2` to `0`,
so the true bit does not survive the round trip. -/
theorem fuzzy_ground_roundtrip_fails_at_zero_draw :
    ((0 : ℚ) ≤ 0 ∧ (0 : ℚ) < 1) ∧
      fuzzy_ground [true] (fun _ => 0) = [1/2] ∧
      (fuzzy_ground [true] (fun _ => 0)).map np_round = [0] := by
  have h1 : fuzzy_ground [true] (fun _ => 0) = [1/2] := by
    norm_num [fuzzy_ground]
  refine ⟨⟨le_refl 0, by norm_num⟩, h1, ?_⟩
  rw [h1]
  simp only [List.map_cons, List.map_nil, np_round_half_eq_zero]

/-- Flipping bits preserves the length of the sequence. -/
lemma flip_bits_length :
    ∀ (l : List Bool) (fr : ℚ) (rng : ℕ → ℚ),
      (flip_bits l fr rng).length = l.length
  | [], _, _ => rfl
  | _ :: rest, fr, rng => by
      simp only [flip_bits, List.length_cons,
        flip_bits_length rest fr (fun n => rng (n + 1))]

/-- Fuzzing preserves the length of the sequence. -/
lemma fuzzy_ground_length :
    ∀ (l : List Bool) (rng : ℕ → ℚ),
      (fuzzy_ground l rng).length = l.length
  | [], _ => rfl
  | _ :: rest, rng => by
      simp only [fuzzy_ground, List.length_cons,
        fuzzy_ground_length rest (fun n => rng (n + 1))]

/-- Rounding the mean of a non-empty list of rows gives a vector whose
length is the header row's length. -/
lemma aggregate_vec_length (x0 : List ℚ) (rest : List (List ℚ)) :
    ∃ v, np_round_result (np_mean_axis0 (x0 :: rest)) = NpResult.vec v ∧
      v.length = x0.length := by
  refine ⟨((List.range x0.length).map (colMean (x0 :: rest))).map np_round,
    rfl, ?_⟩
  simp

/-- C8: shape preservation across one experiment.  `create_classifiers`
and `make_corr_classifiers` return exactly `count` sequences of their
input's length, `fuzzy_ground` preserves length, and both aggregators
return a vector of the shared length on non-empty equal-length input. -/
theorem experiment_shape_invariants (gt base input : List Bool)
    (num1 num2 : ℕ) (fr fl : ℚ) (rng1 rng2 rng3 : ℕ → ℚ)
    (cs : List (List Bool)) (fs : List (List ℚ)) (N M : ℕ)
    (hcs : cs ≠ []) (hcl : ∀ c ∈ cs, c.length = N)
    (hfs : fs ≠ []) (hfl : ∀ f ∈ fs, f.length = M) :
    (create_classifiers gt num1 fr rng1).length = num1 ∧
      (∀ c ∈ create_classifiers gt num1 fr rng1, c.length = gt.length) ∧
      (make_corr_classifiers base fl num2 rng2).length = num2 ∧
      (∀ c ∈ make_corr_classifiers base fl num2 rng2, c.length = base.length) ∧
      (fuzzy_ground input rng3).length = input.length ∧
      (∃ v, do_majority_bool cs = NpResult.vec v ∧ v.length = N) ∧
      (∃ v, fuzzy_ensemble fs = NpResult.vec v ∧ v.length = M) := by
  obtain ⟨c0, csr, rfl⟩ := List.exists_cons_of_ne_nil hcs
  obtain ⟨f0, fsr, rfl⟩ := List.exists_cons_of_ne_nil hfs
  refine ⟨by simp [create_classifiers], ?_, by simp [make_corr_classifiers],
    ?_, fuzzy_ground_length input rng3, ?_, ?_⟩
  · intro c hc
    obtain ⟨k, _, rfl⟩ := List.mem_map.mp hc
    exact flip_bits_length _ _ _
  · intro c hc
    obtain ⟨k, _, rfl⟩ := List.mem_map.mp hc
    exact flip_bits_length _ _ _
  · obtain ⟨v, hv, hvl⟩ := aggregate_vec_length (c0.map boolToQ)
      (csr.map (fun c => c.map boolToQ))
    refine ⟨v, hv, ?_⟩
    rw [hvl, List.length_map, hcl c0 (List.mem_cons_self _ _)]
  · obtain ⟨v, hv, hvl⟩ := aggregate_vec_length f0 fsr
    exact ⟨v, hv, by rw [hvl, hfl f0 (List.mem_cons_self _ _)]⟩

/-- C8 witness: a one-classifier, one-sample experiment exercises every
shape fact at once. -/
theorem experiment_shape_invariants_witness :
    (([[true]] : List (List Bool)) ≠ [] ∧
        (∀ c ∈ ([[true]] : List (List Bool)), c.length = 1) ∧
        ([[1]] : List (List ℚ)) ≠ [] ∧
        (∀ f ∈ ([[1]] : List (List ℚ)), f.length = 1)) ∧
      ((create_classifiers [true] 1 0 (fun _ => 0)).length = 1 ∧
        (∀ c ∈ create_classifiers [true] 1 0 (fun _ => 0),
          c.length = ([true] : List Bool).length) ∧
        (make_corr_classifiers [false] 0 1 (fun _ => 0)).length = 1 ∧
        (∀ c ∈ make_corr_classifiers [false] 0 1 (fun _ => 0),
          c.length = ([false] : List Bool).length) ∧
        (fuzzy_ground [true] (fun _ => 0)).length
          = ([true] : List Bool).length ∧
        (∃ v, do_majority_bool [[true]] = NpResult.vec v ∧ v.length = 1) ∧
        (∃ v, fuzzy_ensemble [[1]] = NpResult.vec v ∧ v.length = 1)) :=
  ⟨⟨by simp, by simp, by simp, by simp⟩,
    experiment_shape_invariants [true] [false] [true] 1 1 0 0
      (fun _ => 0) (fun _ => 0) (fun _ => 0) [[true]] [[1]] 1 1
      (by simp) (by simp) (by simp) (by simp)⟩

/-- Updating one cell leaves every other cell unchanged. -/
lemma mutateCell_getD_of_ne (heap : List (List Bool)) (r j : ℕ)
    (f : List Bool → List Bool) (h : r ≠ j) :
    (mutateCell heap r f).getD j [] = heap.getD j [] := by
  unfold mutateCell
  simp [List.getD, List.getElem?_set_ne h]

/-- A fold of in-place updates at cells `base + k` never touches a cell
below `base`. -/
lemma foldl_mutateCell_frame (f : ℕ → List Bool → List Bool) (base j : ℕ)
    (hj : j < base) :
    ∀ (ks : List ℕ) (h : List (List Bool)),
      ((ks.foldl (fun hp k => mutateCell hp (base + k) (f k)) h)).getD j []
        = h.getD j []
  | [], _ => rfl
  | k :: rest, hp => by
      rw [List.foldl_cons,
        foldl_mutateCell_frame f base j hj rest _,
        mutateCell_getD_of_ne _ _ _ _ (by omega)]

/-- A fold that only appends fresh cells never changes an existing cell. -/
lemma append_singleton_foldl_frame (bs : ℕ) (fl : ℚ) (rng : ℕ → ℚ) (j : ℕ) :
    ∀ (ks : List ℕ) (st : List (List Bool) × List ℕ), j < st.1.length →
      ((ks.foldl (fun st k =>
          (st.1 ++ [flip_bits (st.1.getD bs []) fl
              (fun n => rng (k * (st.1.getD bs []).length + n))],
           st.2 ++ [st.1.length])) st).1).getD j [] = st.1.getD j []
  | [], _, _ => rfl
  | k :: rest, st, hj => by
      rw [List.foldl_cons]
      rw [append_singleton_foldl_frame bs fl rng j rest _
        (by simp only [List.length_append, List.length_cons, List.length_nil]
            omega)]
      exact List.getD_append _ _ _ _ hj

/-- C9: synthesizing classifiers never mutates the reference cell.
`create_classifiers_heap` copies the ground-truth cell and mutates only
the fresh copies; `make_corr_classifiers_heap` copies the base cell and
only appends; in both cases the source cell of the final heap is the
source cell of the initial heap. -/
theorem synthesis_preserves_source_cell (heap : List (List Bool))
    (gt bs : ℕ) (num1 num2 : ℕ) (fr fl : ℚ) (rng1 rng2 : ℕ → ℚ)
    (hgt : gt < heap.length) (hbs : bs < heap.length) :
    (create_classifiers_heap heap gt num1 fr rng1).1.getD gt []
        = heap.getD gt [] ∧
      (make_corr_classifiers_heap heap bs fl num2 rng2).1.getD bs []
        = heap.getD bs [] := by
  constructor
  · exact (foldl_mutateCell_frame
      (fun k c => flip_bits c fr
        (fun n => rng1 (k * (heap.getD gt []).length + n)))
      heap.length gt hgt (List.range num1)
      (heap ++ List.replicate num1 (heap.getD gt []))).trans
      (List.getD_append _ _ _ _ hgt)
  · exact append_singleton_foldl_frame bs fl rng2 bs
      (List.range num2) (heap, []) hbs

/-- C9 witness: a heap with one cell, one synthesized classifier each
way; the source cell is untouched. -/
theorem synthesis_preserves_source_cell_witness :
    (0 < ([[true, false]] : List (List Bool)).length ∧
        0 < ([[true, false]] : List (List Bool)).length) ∧
      ((create_classifiers_heap [[true, false]] 0 1 (1/2)
          (fun _ => 0)).1.getD 0 []
          = ([[true, false]] : List (List Bool)).getD 0 [] ∧
        (make_corr_classifiers_heap [[true, false]] 0 (1/2) 1
          (fun _ => 0)).1.getD 0 []
          = ([[true, false]] : List (List Bool)).getD 0 []) :=
  ⟨⟨by decide, by decide⟩,
    synthesis_preserves_source_cell [[true, false]] 0 0 1 1 (1/2) (1/2)
      (fun _ => 0) (fun _ => 0) (by decide) (by decide)⟩

end EnsembleVoting
